import Mathlib

/-!
Shallow embedding of `vyatta/cpuset.py` (class `Cpuset`): conversions between
range notation, list notation and comma-grouped hexadecimal mask notation of a
CPU set, plus the union (`add_cpuset`) and difference (`remove_cpuset`)
operations.  Strings are modelled as `List Char`; operations that can raise a
Python `ValueError` (all of them coming from `int(...)` conversions) return
`Option`, with `none` standing for the raised exception.
-/

/-- Python `str.strip()` on the characters we model: drop whitespace from both ends. -/
def pyStrip (l : List Char) : List Char :=
  ((l.dropWhile Char.isWhitespace).reverse.dropWhile Char.isWhitespace).reverse

/-- Python `s.split(sep)` for a single-character separator: always returns at
least one (possibly empty) token. -/
def splitSep (sep : Char) : List Char → List (List Char)
  | [] => [[]]
  | c :: rest =>
    if c = sep then [] :: splitSep sep rest
    else
      match splitSep sep rest with
      | [] => [[c]]
      | t :: ts => (c :: t) :: ts

/-- Join tokens with a comma between adjacent tokens: models both Python's
`','.join(...)` and the incremental `out += sep; out += tok; sep = ','` pattern
used throughout the source. -/
def joinC : List (List Char) → List Char
  | [] => []
  | [t] => t
  | t :: ts => t ++ ',' :: joinC ts

/-- Base-`b` digits of `n`, least significant first, computed with explicit
fuel so that the definition reduces inside the kernel.  With fuel `≥ n` it
agrees with `Nat.digits b n`. -/
def digsF (b : Nat) : Nat → Nat → List Nat
  | _, 0 => []
  | 0, _ + 1 => []
  | f + 1, n + 1 => ((n + 1) % b) :: digsF b f ((n + 1) / b)

/-- Base-`b` digits of `n`, least significant first (`digsF` with enough fuel). -/
def pyDigits (b n : Nat) : List Nat := digsF b n n

/-- Python `str(n)` for a natural number. -/
def pyDec (n : Nat) : List Char :=
  if n = 0 then ['0'] else ((pyDigits 10 n).map Nat.digitChar).reverse

/-- Python `format(n, 'x')`: lowercase hex, no leading zeros, `"0"` for zero. -/
def pyHex (n : Nat) : List Char :=
  if n = 0 then ['0'] else ((pyDigits 16 n).map Nat.digitChar).reverse

/-- Python `int(c, 16)` on a single character: its hex value, or an error. -/
def hexVal (c : Char) : Option Nat :=
  if c.isDigit then some (c.toNat - 48)
  else if 'a' ≤ c ∧ c ≤ 'f' then some (c.toNat - 87)
  else if 'A' ≤ c ∧ c ≤ 'F' then some (c.toNat - 55)
  else none

/-- Python `t.isdigit()` for the strings produced here: nonempty and all digits. -/
def pyIsdigit (t : List Char) : Bool := !t.isEmpty && t.all Char.isDigit

/-- Python `int(t)` on the decimal tokens appearing here: digits-only parse. -/
def pyInt (t : List Char) : Option Nat :=
  if pyIsdigit t then some (t.foldl (fun a c => 10 * a + (c.toNat - 48)) 0) else none

/-- Apply a fallible function to every element; the first failure aborts,
like an uncaught exception inside a Python loop. -/
def mapO {α β : Type} (f : α → Option β) : List α → Option (List β)
  | [] => some []
  | a :: as =>
    match f a, mapO f as with
    | some b, some bs => some (b :: bs)
    | _, _ => none

/-- The loop state of `_mask_to_range`: `start` is `-1` (here `none`) or the
start of the currently open run, `last` the last bit of that run, `bitv` the
Python variable `bit` (the most recently processed set bit position), `acc`
the accumulated output and `sep` the current separator. -/
structure MRSt where
  start : Option Nat
  last : Nat
  bitv : Nat
  acc : List Char
  sep : List Char

/-- One iteration of the inner loop of `_mask_to_range`, processing the bit at
absolute position `j` with value `b`. -/
def stepBit (s : MRSt) (j : Nat) (b : Bool) : MRSt :=
  if b then
    match s.start with
    | some _ =>
      if j = s.last + 1 then { s with bitv := j, last := j } else { s with bitv := j }
    | none =>
      { start := some j, last := j, bitv := j, acc := s.acc ++ s.sep ++ pyDec j,
        sep := [','] }
  else
    match s.start with
    | some st =>
      { s with start := none,
               acc := if st ≠ s.last then s.acc ++ '-' :: pyDec s.bitv else s.acc }
    | none => s

/-- Run the `_mask_to_range` loop over a list of bits starting at position `j`. -/
def runBits : List Bool → Nat → MRSt → MRSt
  | [], _, s => s
  | b :: bs, j, s => runBits bs (j + 1) (stepBit s j b)

/-- The `#Terminate open range` epilogue of `_mask_to_range`. -/
def finishMR (s : MRSt) : List Char :=
  match s.start with
  | some st => if st ≠ s.last then s.acc ++ '-' :: pyDec s.last else s.acc
  | none => s.acc

/-- The four bits of one hex digit, least significant first. -/
def nib (v : Nat) : List Bool := [v.testBit 0, v.testBit 1, v.testBit 2, v.testBit 3]

/-- The bit stream (least significant bit first) of a least-significant-first
list of hex digit values. -/
def bitsOf (vals : List Nat) : List Bool := (vals.map nib).flatten

/-- `Cpuset._mask_to_range`: decode a hex mask string into range notation.
`none` models the `ValueError` raised by `int(char, 16)` on a non-hex character. -/
def maskToRange (m : List Char) : Option (List Char) :=
  match mapO hexVal m.reverse with
  | some vals => some (finishMR (runBits (bitsOf vals) 0 ⟨none, 0, 0, [], []⟩))
  | none => none

/-- One token of `_range_to_list`: a bare value emits itself verbatim, a
`lo-hi` token emits the decimal numbers `lo..hi`; `none` models the
`ValueError` from `int` on a malformed part. -/
def pieceOf (val : List Char) : Option (List (List Char)) :=
  if '-' ∈ val then
    match splitSep '-' val with
    | a :: b :: _ =>
      match pyInt a, pyInt b with
      | some x, some y => some ((List.range' x (y + 1 - x)).map pyDec)
      | _, _ => none
    | _ => none
  else some [val]

/-- `Cpuset._range_to_list`: expand range notation into list notation. -/
def rangeToList (cpus : List Char) : Option (List Char) :=
  if cpus = [] then some []
  else
    match mapO pieceOf (splitSep ',' cpus) with
    | some pieces => some (joinC pieces.flatten)
    | none => none

/-- `Cpuset._list_to_range`: build the bitmask by summing `1 << int(tok)` over
the comma-separated tokens, render it in hex and decode it back with
`_mask_to_range`. -/
def listToRange (l : List Char) : Option (List Char) :=
  match mapO pyInt (splitSep ',' l) with
  | some vals => maskToRange (pyHex ((vals.map (2 ^ ·)).sum))
  | none => none

/-- The slices `[m[i:i+8] for i in range(s, len(m), 8)]`: chunks of eight
characters (a shorter final chunk if the length does not divide). -/
def chunk8 : List Char → List (List Char)
  | [] => []
  | [a] => [[a]]
  | [a, b] => [[a, b]]
  | [a, b, c] => [[a, b, c]]
  | [a, b, c, d] => [[a, b, c, d]]
  | [a, b, c, d, e] => [[a, b, c, d, e]]
  | [a, b, c, d, e, f] => [[a, b, c, d, e, f]]
  | [a, b, c, d, e, f, g] => [[a, b, c, d, e, f, g]]
  | a :: b :: c :: d :: e :: f :: g :: h :: rest => [a, b, c, d, e, f, g, h] :: chunk8 rest

/-- The regrouping at the end of `_range_to_mask`: an unpadded leading group of
`len % 8` digits followed by a comma, then the comma-joined 8-digit groups. -/
def group8 (m : List Char) : List Char :=
  (if m.length % 8 ≠ 0 then m.take (m.length % 8) ++ [','] else [])
    ++ joinC (chunk8 (m.drop (m.length % 8)))

/-- `Cpuset._range_to_mask`: empty set gives the empty string, otherwise sum
`1 << int(tok)` over the expanded list and regroup the hex form. -/
def rangeToMask (cpus : List Char) : Option (List Char) :=
  if cpus = [] then some []
  else
    match rangeToList cpus with
    | some l =>
      match mapO pyInt (splitSep ',' l) with
      | some vals => some (group8 (pyHex ((vals.map (2 ^ ·)).sum)))
      | none => none
    | none => none

/-- The `Cpuset` object: its single attribute `cpus` holds range notation. -/
structure Cpuset where
  cpus : List Char
deriving DecidableEq

/-- `Cpuset.__init__`: strip the text; when `mask` is true decode it with
`_mask_to_range` (which may raise). -/
def Cpuset.new (text : List Char) (mask : Bool) : Option Cpuset :=
  if mask then (maskToRange (pyStrip text)).map Cpuset.mk
  else some ⟨pyStrip text⟩

/-- The `range()` accessor: returns `cpus` verbatim. -/
def Cpuset.rangeStr (s : Cpuset) : List Char := s.cpus

/-- The `list()` accessor. -/
def Cpuset.listStr (s : Cpuset) : Option (List Char) := rangeToList s.cpus

/-- The `mask()` accessor. -/
def Cpuset.maskStr (s : Cpuset) : Option (List Char) := rangeToMask s.cpus

/-- `Cpuset.add_cpuset`: keep the digit tokens of `self`'s list, then the digit
tokens of the operand's list not already present (string membership), and
re-canonicalize with `_list_to_range`. -/
def Cpuset.add (a b : Cpuset) : Option Cpuset :=
  match a.listStr, b.listStr with
  | some la, some lb =>
    let ta := splitSep ',' la
    let tb := splitSep ',' lb
    let toks := ta.filter pyIsdigit ++ (tb.filter (fun t => !ta.contains t)).filter pyIsdigit
    match listToRange (joinC toks) with
    | some r => some ⟨r⟩
    | none => none
  | _, _ => none

/-- `Cpuset.remove_cpuset`: keep the digit tokens of `self`'s list that are not
in the operand's list; an empty result is stored directly, otherwise
re-canonicalize with `_list_to_range`. -/
def Cpuset.remove (a b : Cpuset) : Option Cpuset :=
  match a.listStr, b.listStr with
  | some la, some lb =>
    let toks := ((splitSep ',' la).filter (fun t => !(splitSep ',' lb).contains t)).filter pyIsdigit
    if joinC toks = [] then some ⟨[]⟩
    else
      match listToRange (joinC toks) with
      | some r => some ⟨r⟩
      | none => none
  | _, _ => none

/-! Specification-side descriptions of the mask decoder's output, used to
state and prove the general claims. -/

/-- Render one maximal run `(start, last)` the way `_mask_to_range` does:
a bare number for a singleton, `start-last` otherwise. -/
def renderRun (p : Nat × Nat) : List Char :=
  pyDec p.1 ++ (if p.1 = p.2 then [] else '-' :: pyDec p.2)

/-- Group an ascending tail into maximal runs, with `(s, l)` the currently
open run. -/
def runsGo : Nat → Nat → List Nat → List (Nat × Nat)
  | s, l, [] => [(s, l)]
  | s, l, x :: xs => if x = l + 1 then runsGo s x xs else (s, l) :: runsGo x x xs

/-- Maximal consecutive runs of an ascending list of bit positions. -/
def runsOfAsc : List Nat → List (Nat × Nat)
  | [] => []
  | x :: xs => runsGo x x xs

/-- Positions of the true bits, counting from `j`. -/
def truePos : List Bool → Nat → List Nat
  | [], _ => []
  | b :: bs, j => if b then j :: truePos bs (j + 1) else truePos bs (j + 1)

/-- Canonical range notation of an ascending list of positions. -/
def encodeAsc (xs : List Nat) : List Char := joinC ((runsOfAsc xs).map renderRun)

/-- What remains to be emitted while a run `(st, l)` is open; mirrors the
machine's remaining output on the ascending position list. -/
def openTail : Nat → Nat → List Nat → List Char
  | st, l, [] => if st = l then [] else '-' :: pyDec l
  | st, l, x :: xs =>
    if x = l + 1 then openTail st x xs
    else (if st = l then [] else '-' :: pyDec l) ++ ',' :: joinC ((runsGo x x xs).map renderRun)

/-- Expand runs back into the individual positions. -/
def expandRuns (rs : List (Nat × Nat)) : List Nat :=
  rs.flatMap fun p => List.range' p.1 (p.2 + 1 - p.1)

/-- The number whose little-endian bit list this is. -/
def valBits : List Bool → Nat
  | [] => 0
  | b :: bs => (if b then 1 else 0) + 2 * valBits bs

/-- Hex digit values fed to the decoder when the mask text is `pyHex n`. -/
def hexDigitsOf (n : Nat) : List Nat := if n = 0 then [0] else pyDigits 16 n

/-- The canonical range string the system associates to the bitmask `n`:
what `_mask_to_range(format(n, 'x'))` returns. -/
def canonOf (n : Nat) : List Char := encodeAsc (truePos (bitsOf (hexDigitsOf n)) 0)

/-- A valid range-notation token: a bare decimal numeral, or `lo-hi` with
`lo < hi`. -/
def validTok (t : List Char) : Prop :=
  (∃ n : Nat, t = pyDec n) ∨ ∃ a b : Nat, a < b ∧ t = pyDec a ++ '-' :: pyDec b

/-- Valid range notation: empty, or every comma-separated entry is valid. -/
def validRange (r : List Char) : Prop :=
  r = [] ∨ ∀ t ∈ splitSep ',' r, validTok t

/-- The member values a range string expands to (in emission order). -/
def memberVals (r : List Char) : Option (List Nat) :=
  match rangeToList r with
  | some l => mapO pyInt (splitSep ',' l)
  | none => none

theorem digsF_eq_digits {b : Nat} (hb : 1 < b) :
    ∀ f n : Nat, n ≤ f → digsF b f n = Nat.digits b n := by
  intro f
  induction f with
  | zero =>
    intro n hn
    interval_cases n
    simp [digsF]
  | succ f ih =>
    intro n hn
    match n with
    | 0 => simp [digsF]
    | n + 1 =>
      have hdiv : (n + 1) / b ≤ f :=
        le_trans (Nat.le_of_lt_succ (Nat.div_lt_self (Nat.succ_pos n) hb))
          (Nat.le_of_succ_le_succ hn)
      rw [digsF, ih _ hdiv, ← Nat.digits_def' hb (Nat.succ_pos n)]

theorem pyDigits_eq_digits {b : Nat} (hb : 1 < b) (n : Nat) :
    pyDigits b n = Nat.digits b n :=
  digsF_eq_digits hb n n le_rfl

theorem pyDec_eq (n : Nat) :
    pyDec n = if n = 0 then ['0'] else ((Nat.digits 10 n).map Nat.digitChar).reverse := by
  rw [pyDec, pyDigits_eq_digits (by norm_num)]

theorem pyHex_eq (n : Nat) :
    pyHex n = if n = 0 then ['0'] else ((Nat.digits 16 n).map Nat.digitChar).reverse := by
  rw [pyHex, pyDigits_eq_digits (by norm_num)]

theorem hexVal_digitChar : ∀ d : Nat, d < 16 → hexVal (Nat.digitChar d) = some d := by decide

theorem digitChar_isDigit : ∀ d : Nat, d < 10 → (Nat.digitChar d).isDigit = true := by decide

theorem digitChar_val : ∀ d : Nat, d < 10 → (Nat.digitChar d).toNat - 48 = d := by decide

theorem isDigit_ne_comma {c : Char} (h : c.isDigit = true) : c ≠ ',' := by
  intro hc; subst hc; exact absurd h (by decide)

theorem isDigit_ne_dash {c : Char} (h : c.isDigit = true) : c ≠ '-' := by
  intro hc; subst hc; exact absurd h (by decide)

theorem pyDec_ne_nil (n : Nat) : pyDec n ≠ [] := by
  rw [pyDec_eq]
  split
  · simp
  · simpa using Nat.digits_ne_nil_iff_ne_zero.mpr (by assumption)

theorem pyDec_all_digit (n : Nat) : ∀ c ∈ pyDec n, c.isDigit = true := by
  rw [pyDec_eq]
  split
  · intro c hc; simp at hc; subst hc; decide
  · intro c hc
    simp only [List.mem_reverse, List.mem_map] at hc
    obtain ⟨d, hd, rfl⟩ := hc
    exact digitChar_isDigit d (Nat.digits_lt_base (by norm_num) hd)

theorem comma_not_mem_pyDec (n : Nat) : ',' ∉ pyDec n := by
  intro h; exact absurd rfl (isDigit_ne_comma (pyDec_all_digit n ',' h))

theorem dash_not_mem_pyDec (n : Nat) : '-' ∉ pyDec n := by
  intro h; exact absurd rfl (isDigit_ne_dash (pyDec_all_digit n '-' h))

theorem pyIsdigit_pyDec (n : Nat) : pyIsdigit (pyDec n) = true := by
  have h1 := pyDec_ne_nil n
  have h2 := pyDec_all_digit n
  rw [pyIsdigit]
  simp [List.isEmpty_iff, h1, List.all_eq_true]
  exact h2

theorem decFold_eq_ofDigits :
    ∀ ds : List Nat, (∀ d ∈ ds, d < 10) →
      ((ds.map Nat.digitChar).reverse).foldl (fun a c => 10 * a + (c.toNat - 48)) 0
        = Nat.ofDigits 10 ds := by
  intro ds
  induction ds with
  | nil => intro _; simp
  | cons d ds ih =>
    intro h
    have hd : d < 10 := h d (List.mem_cons_self d ds)
    rw [List.map_cons, List.reverse_cons, List.foldl_append,
      ih (fun x hx => h x (List.mem_cons_of_mem d hx))]
    simp [Nat.ofDigits_cons, digitChar_val d hd]
    ring

theorem pyInt_pyDec (n : Nat) : pyInt (pyDec n) = some n := by
  rw [pyInt, if_pos (pyIsdigit_pyDec n)]
  rcases Nat.eq_zero_or_pos n with rfl | hn
  · decide
  · rw [pyDec_eq, if_neg (Nat.pos_iff_ne_zero.mp hn),
      decFold_eq_ofDigits _ (fun d hd => Nat.digits_lt_base (by norm_num) hd),
      Nat.ofDigits_digits]

theorem splitSep_ne_nil (sep : Char) (l : List Char) : splitSep sep l ≠ [] := by
  induction l with
  | nil => simp [splitSep]
  | cons c rest ih =>
    rw [splitSep]
    split
    · simp
    · match h : splitSep sep rest with
      | [] => exact absurd h ih
      | t :: ts => simp

theorem splitSep_sepFree {sep : Char} {t : List Char} (h : sep ∉ t) :
    splitSep sep t = [t] := by
  induction t with
  | nil => rfl
  | cons c rest ih =>
    have hc : c ≠ sep := fun hcs => h (hcs ▸ List.mem_cons_self c rest)
    rw [splitSep, if_neg hc, ih (fun hm => h (List.mem_cons_of_mem c hm))]

theorem splitSep_append {sep : Char} {t : List Char} (s : List Char) (h : sep ∉ t) :
    splitSep sep (t ++ sep :: s) = t :: splitSep sep s := by
  induction t with
  | nil => simp [splitSep]
  | cons c rest ih =>
    have hc : c ≠ sep := fun hcs => h (hcs ▸ List.mem_cons_self c rest)
    rw [List.cons_append, splitSep, if_neg hc, ih (fun hm => h (List.mem_cons_of_mem c hm))]

theorem joinC_cons {t : List Char} {ts : List (List Char)} (h : ts ≠ []) :
    joinC (t :: ts) = t ++ ',' :: joinC ts := by
  match ts with
  | [] => exact absurd rfl h
  | t' :: ts' => rfl

theorem splitSep_joinC :
    ∀ ts : List (List Char), ts ≠ [] → (∀ t ∈ ts, ',' ∉ t) →
      splitSep ',' (joinC ts) = ts := by
  intro ts
  induction ts with
  | nil => intro h; exact absurd rfl h
  | cons t ts ih =>
    intro _ h
    match ts with
    | [] => exact splitSep_sepFree (h t (List.mem_cons_self t []))
    | t' :: ts' =>
      rw [joinC_cons (by simp), splitSep_append _ (h t (List.mem_cons_self _ _)),
        ih (by simp) (fun x hx => h x (List.mem_cons_of_mem t hx))]

theorem mapO_eq_none {α β : Type} {f : α → Option β} {l : List α} {a : α}
    (ha : a ∈ l) (hfa : f a = none) : mapO f l = none := by
  induction l with
  | nil => cases ha
  | cons x xs ih =>
    rw [mapO]
    rcases List.mem_cons.mp ha with rfl | hm
    · rw [hfa]
    · rw [ih hm]
      cases f x <;> rfl

theorem mapO_hexVal_digitChar :
    ∀ ds : List Nat, (∀ d ∈ ds, d < 16) → mapO hexVal (ds.map Nat.digitChar) = some ds := by
  intro ds
  induction ds with
  | nil => intro _; rfl
  | cons d ds ih =>
    intro h
    rw [List.map_cons, mapO, hexVal_digitChar d (h d (List.mem_cons_self d ds)),
      ih (fun x hx => h x (List.mem_cons_of_mem d hx))]

theorem mapO_pyInt_pyDec (xs : List Nat) : mapO pyInt (xs.map pyDec) = some xs := by
  induction xs with
  | nil => rfl
  | cons x xs ih => rw [List.map_cons, mapO, pyInt_pyDec, ih]

theorem truePos_lb : ∀ (bs : List Bool) (j x : Nat), x ∈ truePos bs j → j ≤ x := by
  intro bs
  induction bs with
  | nil => intro j x hx; simp [truePos] at hx
  | cons b bs ih =>
    intro j x hx
    rw [truePos] at hx
    cases b with
    | false =>
      simp only [if_neg (by simp : ¬ (false = true))] at hx
      exact le_trans (Nat.le_succ j) (ih (j + 1) x hx)
    | true =>
      simp only [if_pos rfl] at hx
      rcases List.mem_cons.mp hx with rfl | hm
      · exact le_rfl
      · exact le_trans (Nat.le_succ j) (ih (j + 1) x hm)

theorem runsGo_ne_nil : ∀ (xs : List Nat) (st l : Nat), runsGo st l xs ≠ [] := by
  intro xs
  induction xs with
  | nil => intro st l; simp [runsGo]
  | cons x xs ih =>
    intro st l
    rw [runsGo]
    split
    · exact ih st x
    · simp

theorem joinC_runsGo :
    ∀ (xs : List Nat) (st l : Nat),
      joinC ((runsGo st l xs).map renderRun) = pyDec st ++ openTail st l xs := by
  intro xs
  induction xs with
  | nil => intro st l; simp [runsGo, openTail, joinC, renderRun]
  | cons x xs ih =>
    intro st l
    rw [runsGo, openTail]
    by_cases h : x = l + 1
    · rw [if_pos h, if_pos h, ih]
    · rw [if_neg h, if_neg h, List.map_cons,
        joinC_cons (by simp [runsGo_ne_nil] : (runsGo x x xs).map renderRun ≠ [])]
      simp [renderRun, List.append_assoc]

theorem runBits_spec (bs : List Bool) :
    (∀ (j : Nat) (acc sep : List Char) (lv bv : Nat),
      finishMR (runBits bs j ⟨none, lv, bv, acc, sep⟩)
        = acc ++ (if truePos bs j = [] then []
                  else sep ++ joinC ((runsOfAsc (truePos bs j)).map renderRun)))
    ∧ (∀ (l st : Nat) (acc : List Char),
      finishMR (runBits bs (l + 1) ⟨some st, l, l, acc, [',']⟩)
        = acc ++ openTail st l (truePos bs (l + 1))) := by
  induction bs with
  | nil =>
    constructor
    · intro j acc sep lv bv
      simp [runBits, finishMR, truePos]
    · intro l st acc
      simp only [runBits, finishMR, openTail]
      by_cases h : st = l
      · simp [h]
      · simp [h]
  | cons b bs ih =>
    obtain ⟨ihC, ihO⟩ := ih
    constructor
    · intro j acc sep lv bv
      rw [runBits]
      cases b with
      | false =>
        have hstep : stepBit ⟨none, lv, bv, acc, sep⟩ j false = ⟨none, lv, bv, acc, sep⟩ := by
          simp [stepBit]
        rw [hstep, ihC, truePos]
        simp
      | true =>
        have hstep : stepBit ⟨none, lv, bv, acc, sep⟩ j true
            = ⟨some j, j, j, acc ++ sep ++ pyDec j, [',']⟩ := by
          simp [stepBit]
        rw [hstep, ihO j j (acc ++ sep ++ pyDec j)]
        have htp : truePos (true :: bs) j = j :: truePos bs (j + 1) := by simp [truePos]
        rw [htp]
        have hne : (j :: truePos bs (j + 1)) ≠ [] := by simp
        rw [if_neg hne]
        show acc ++ sep ++ pyDec j ++ openTail j j (truePos bs (j + 1))
          = acc ++ (sep ++ joinC ((runsGo j j (truePos bs (j + 1))).map renderRun))
        rw [joinC_runsGo]
        simp [List.append_assoc]
    · intro l st acc
      rw [runBits]
      cases b with
      | true =>
        have hstep : stepBit ⟨some st, l, l, acc, [',']⟩ (l + 1) true
            = ⟨some st, l + 1, l + 1, acc, [',']⟩ := by
          simp [stepBit]
        rw [hstep, ihO (l + 1) st acc]
        have htp : truePos (true :: bs) (l + 1) = (l + 1) :: truePos bs (l + 2) := by
          simp [truePos]
        rw [htp, openTail, if_pos rfl]
      | false =>
        have hstep : stepBit ⟨some st, l, l, acc, [',']⟩ (l + 1) false
            = ⟨none, l, l, (if st ≠ l then acc ++ '-' :: pyDec l else acc), [',']⟩ := by
          simp [stepBit]
        rw [hstep, ihC (l + 2)]
        have htp : truePos (false :: bs) (l + 1) = truePos bs (l + 2) := by simp [truePos]
        rw [htp]
        cases hxs : truePos bs (l + 2) with
        | nil =>
          by_cases h : st = l <;> simp [openTail, h]
        | cons x xs =>
          have hx : x ≠ l + 1 := by
            have := truePos_lb bs (l + 2) x (hxs ▸ List.mem_cons_self x xs)
            omega
          rw [openTail, if_neg hx, if_neg (show ¬(x :: xs = []) from by simp)]
          by_cases h : st = l <;> simp [h, runsOfAsc, List.append_assoc]

theorem maskToRange_vals_eq (vals : List Nat) :
    finishMR (runBits (bitsOf vals) 0 ⟨none, 0, 0, [], []⟩)
      = encodeAsc (truePos (bitsOf vals) 0) := by
  rw [(runBits_spec (bitsOf vals)).1 0 [] [] 0 0]
  cases htp : truePos (bitsOf vals) 0 with
  | nil => simp [encodeAsc, htp, runsOfAsc, joinC]
  | cons x xs => simp [encodeAsc, htp]

theorem maskToRange_eq_encode {m : List Char} {vals : List Nat}
    (h : mapO hexVal m.reverse = some vals) :
    maskToRange m = some (encodeAsc (truePos (bitsOf vals) 0)) := by
  rw [maskToRange, h]
  exact congrArg some (maskToRange_vals_eq vals)

theorem truePos_chain :
    ∀ (bs : List Bool) (j l : Nat), l < j → List.Chain (· < ·) l (truePos bs j) := by
  intro bs
  induction bs with
  | nil => intro j l _; simp [truePos]
  | cons b bs ih =>
    intro j l hl
    cases b with
    | false =>
      have h : truePos (false :: bs) j = truePos bs (j + 1) := by simp [truePos]
      rw [h]
      exact ih (j + 1) l (lt_trans hl (Nat.lt_succ_self j))
    | true =>
      have h : truePos (true :: bs) j = j :: truePos bs (j + 1) := by simp [truePos]
      rw [h]
      exact List.Chain.cons hl (ih (j + 1) j (Nat.lt_succ_self j))

theorem truePos_tail :
    ∀ (bs : List Bool) (j x : Nat) (rest : List Nat),
      truePos bs j = x :: rest → ∃ bs' : List Bool, rest = truePos bs' (x + 1) := by
  intro bs
  induction bs with
  | nil => intro j x rest h; simp [truePos] at h
  | cons b bs ih =>
    intro j x rest h
    cases b with
    | false =>
      have he : truePos (false :: bs) j = truePos bs (j + 1) := by simp [truePos]
      rw [he] at h
      exact ih (j + 1) x rest h
    | true =>
      have he : truePos (true :: bs) j = j :: truePos bs (j + 1) := by simp [truePos]
      rw [he] at h
      injection h with h1 h2
      subst h1
      exact ⟨bs, h2.symm⟩

theorem expandRuns_runsGo :
    ∀ (xs : List Nat) (s l : Nat), s ≤ l → List.Chain (· < ·) l xs →
      expandRuns (runsGo s l xs) = List.range' s (l + 1 - s) ++ xs := by
  intro xs
  induction xs with
  | nil => intro s l _ _; simp [runsGo, expandRuns]
  | cons x xs ih =>
    intro s l hsl hch
    have hlx : l < x := List.rel_of_chain_cons hch
    have hxs : List.Chain (· < ·) x xs := List.chain_of_chain_cons hch
    rw [runsGo]
    by_cases hx : x = l + 1
    · rw [if_pos hx]
      rw [ih s x (by omega) hxs]
      have hr : List.range' s (x + 1 - s) = List.range' s (l + 1 - s) ++ [l + 1] := by
        have h1 : x + 1 - s = (l + 1 - s) + 1 := by omega
        rw [h1, List.range'_concat]
        have h2 : s + 1 * (l + 1 - s) = l + 1 := by omega
        rw [h2]
      rw [hr, hx, List.append_assoc]
      rfl
    · rw [if_neg hx]
      have he : expandRuns ((s, l) :: runsGo x x xs)
          = List.range' s (l + 1 - s) ++ expandRuns (runsGo x x xs) := by
        simp [expandRuns]
      rw [he, ih x x le_rfl hxs]
      have h1 : x + 1 - x = 1 := by omega
      rw [h1]
      have h2 : List.range' x 1 = [x] := rfl
      rw [h2]
      rfl

theorem expandRuns_runsOfAsc {xs : List Nat} (h : List.Chain' (· < ·) xs) :
    expandRuns (runsOfAsc xs) = xs := by
  cases xs with
  | nil => rfl
  | cons x rest =>
    rw [runsOfAsc, expandRuns_runsGo rest x x le_rfl h]
    have h1 : x + 1 - x = 1 := by omega
    rw [h1]
    rfl

theorem runsGo_bounds :
    ∀ (xs : List Nat) (s l : Nat), s ≤ l → List.Chain (· < ·) l xs →
      ∀ p ∈ runsGo s l xs, p.1 ≤ p.2 := by
  intro xs
  induction xs with
  | nil =>
    intro s l hsl _ p hp
    rw [runsGo] at hp
    simp at hp
    subst hp
    exact hsl
  | cons x xs ih =>
    intro s l hsl hch p hp
    have hlx : l < x := List.rel_of_chain_cons hch
    have hxs : List.Chain (· < ·) x xs := List.chain_of_chain_cons hch
    rw [runsGo] at hp
    by_cases hx : x = l + 1
    · rw [if_pos hx] at hp
      exact ih s x (by omega) hxs p hp
    · rw [if_neg hx] at hp
      rcases List.mem_cons.mp hp with rfl | hm
      · exact hsl
      · exact ih x x le_rfl hxs p hm

theorem valBits_append (as bs : List Bool) :
    valBits (as ++ bs) = valBits as + 2 ^ as.length * valBits bs := by
  induction as with
  | nil => simp [valBits]
  | cons a as ih =>
    rw [List.cons_append, valBits, valBits, ih]
    simp [List.length_cons, pow_succ]
    ring

theorem valBits_nib : ∀ v : Nat, v < 16 → valBits (nib v) = v := by decide

theorem valBits_bitsOf :
    ∀ vals : List Nat, (∀ v ∈ vals, v < 16) →
      valBits (bitsOf vals) = Nat.ofDigits 16 vals := by
  intro vals
  induction vals with
  | nil => intro _; simp [bitsOf, valBits]
  | cons v vals ih =>
    intro h
    have hb : bitsOf (v :: vals) = nib v ++ bitsOf vals := by simp [bitsOf]
    rw [hb, valBits_append, valBits_nib v (h v (List.mem_cons_self v vals)),
      ih (fun x hx => h x (List.mem_cons_of_mem v hx)), Nat.ofDigits_cons]
    have hl : (nib v).length = 4 := rfl
    rw [hl]
    norm_num

theorem truePos_sum :
    ∀ (bs : List Bool) (j : Nat),
      ((truePos bs j).map (2 ^ ·)).sum = 2 ^ j * valBits bs := by
  intro bs
  induction bs with
  | nil => intro j; simp [truePos, valBits]
  | cons b bs ih =>
    intro j
    cases b with
    | false =>
      have h : truePos (false :: bs) j = truePos bs (j + 1) := by simp [truePos]
      rw [h, ih, valBits]
      simp [pow_succ]
      ring
    | true =>
      have h : truePos (true :: bs) j = j :: truePos bs (j + 1) := by simp [truePos]
      rw [h, List.map_cons, List.sum_cons, ih, valBits]
      simp [pow_succ]
      ring

theorem hexDigitsOf_lt (n : Nat) : ∀ v ∈ hexDigitsOf n, v < 16 := by
  intro v hv
  rw [hexDigitsOf] at hv
  split at hv
  · simp at hv; omega
  · rw [pyDigits_eq_digits (by norm_num)] at hv
    exact Nat.digits_lt_base (by norm_num) hv

theorem ofDigits_hexDigitsOf (n : Nat) : Nat.ofDigits 16 (hexDigitsOf n) = n := by
  rw [hexDigitsOf]
  split
  · subst n; simp [Nat.ofDigits]
  · rw [pyDigits_eq_digits (by norm_num), Nat.ofDigits_digits]

theorem canonOf_sum (n : Nat) :
    ((truePos (bitsOf (hexDigitsOf n)) 0).map (2 ^ ·)).sum = n := by
  rw [truePos_sum, valBits_bitsOf _ (hexDigitsOf_lt n), ofDigits_hexDigitsOf]
  simp

theorem maskToRange_pyHex (n : Nat) : maskToRange (pyHex n) = some (canonOf n) := by
  have h : mapO hexVal (pyHex n).reverse = some (hexDigitsOf n) := by
    rw [pyHex, hexDigitsOf]
    split
    · decide
    · rw [List.reverse_reverse]
      refine mapO_hexVal_digitChar _ (fun d hd => ?_)
      rw [pyDigits_eq_digits (show (1 : Nat) < 16 by norm_num)] at hd
      exact Nat.digits_lt_base (by norm_num) hd
  rw [maskToRange_eq_encode h, canonOf]

theorem comma_not_mem_renderRun (p : Nat × Nat) : ',' ∉ renderRun p := by
  intro h
  rw [renderRun] at h
  rcases List.mem_append.mp h with h1 | h2
  · exact comma_not_mem_pyDec p.1 h1
  · split at h2
    · simp at h2
    · rcases List.mem_cons.mp h2 with he | hm
      · exact absurd he.symm (by decide)
      · exact comma_not_mem_pyDec p.2 hm

theorem renderRun_ne_nil (p : Nat × Nat) : renderRun p ≠ [] := by
  rw [renderRun]
  intro h
  rcases List.append_eq_nil.mp h with ⟨h1, _⟩
  exact pyDec_ne_nil p.1 h1

theorem joinC_head_ne_nil {t : List Char} {ts : List (List Char)} (h : t ≠ []) :
    joinC (t :: ts) ≠ [] := by
  cases ts with
  | nil => simpa [joinC] using h
  | cons t' ts' =>
    rw [joinC_cons (by simp)]
    simp [List.append_eq_nil]

theorem runsGo_shape :
    ∀ (xs : List Nat) (st l : Nat), ∃ (L : Nat) (rest : List (Nat × Nat)),
      runsGo st l xs = (st, L) :: rest := by
  intro xs
  induction xs with
  | nil => intro st l; exact ⟨l, [], rfl⟩
  | cons x xs ih =>
    intro st l
    rw [runsGo]
    by_cases hx : x = l + 1
    · rw [if_pos hx]; exact ih st x
    · rw [if_neg hx]; exact ⟨l, runsGo x x xs, rfl⟩

theorem encodeAsc_cons_ne_nil (x : Nat) (rest : List Nat) : encodeAsc (x :: rest) ≠ [] := by
  rw [encodeAsc, runsOfAsc]
  obtain ⟨L, rs, hr⟩ := runsGo_shape rest x x
  rw [hr, List.map_cons]
  exact joinC_head_ne_nil (renderRun_ne_nil (x, L))

theorem splitSep_joinC_renderRuns (rs : List (Nat × Nat)) (h : rs ≠ []) :
    splitSep ',' (joinC (rs.map renderRun)) = rs.map renderRun :=
  splitSep_joinC _ (by simpa using h)
    (fun t ht => by
      obtain ⟨p, _, rfl⟩ := List.mem_map.mp ht
      exact comma_not_mem_renderRun p)

theorem pieceOf_renderRun {p : Nat × Nat} (h : p.1 ≤ p.2) :
    pieceOf (renderRun p) = some ((List.range' p.1 (p.2 + 1 - p.1)).map pyDec) := by
  rcases Nat.lt_or_ge p.1 p.2 with hlt | hge
  · have hrr : renderRun p = pyDec p.1 ++ '-' :: pyDec p.2 := by
      rw [renderRun, if_neg (Nat.ne_of_lt hlt)]
    rw [pieceOf, hrr]
    have hin : '-' ∈ pyDec p.1 ++ '-' :: pyDec p.2 :=
      List.mem_append.mpr (Or.inr (List.mem_cons_self _ _))
    rw [if_pos hin, splitSep_append _ (dash_not_mem_pyDec p.1),
      splitSep_sepFree (dash_not_mem_pyDec p.2)]
    show (match pyInt (pyDec p.1), pyInt (pyDec p.2) with
      | some x, some y => some ((List.range' x (y + 1 - x)).map pyDec)
      | _, _ => none) = some ((List.range' p.1 (p.2 + 1 - p.1)).map pyDec)
    rw [pyInt_pyDec, pyInt_pyDec]
  · have heq : p.1 = p.2 := le_antisymm h hge
    have hrr : renderRun p = pyDec p.1 := by
      rw [renderRun, if_pos heq]
      simp
    rw [pieceOf, hrr, if_neg (dash_not_mem_pyDec p.1)]
    have hr1 : p.2 + 1 - p.1 = 1 := by omega
    rw [hr1]
    have hr2 : List.range' p.1 1 = [p.1] := rfl
    rw [hr2]
    rfl

theorem mapO_pieceOf_runs :
    ∀ rs : List (Nat × Nat), (∀ p ∈ rs, p.1 ≤ p.2) →
      mapO pieceOf (rs.map renderRun)
        = some (rs.map (fun p => (List.range' p.1 (p.2 + 1 - p.1)).map pyDec)) := by
  intro rs
  induction rs with
  | nil => intro _; rfl
  | cons p rs ih =>
    intro h
    rw [List.map_cons, mapO, pieceOf_renderRun (h p (List.mem_cons_self p rs)),
      ih (fun q hq => h q (List.mem_cons_of_mem p hq)), List.map_cons]

theorem expandRuns_cons (p : Nat × Nat) (rs : List (Nat × Nat)) :
    expandRuns (p :: rs) = List.range' p.1 (p.2 + 1 - p.1) ++ expandRuns rs := by
  simp [expandRuns]

theorem flatten_ranges_map (rs : List (Nat × Nat)) :
    (rs.map (fun p => (List.range' p.1 (p.2 + 1 - p.1)).map pyDec)).flatten
      = (expandRuns rs).map pyDec := by
  induction rs with
  | nil => rfl
  | cons p rs ih =>
    rw [List.map_cons, List.flatten_cons, ih, expandRuns_cons, List.map_append]

theorem rangeToList_encodeAsc {x : Nat} {rest : List Nat}
    (hch : List.Chain (· < ·) x rest) :
    rangeToList (encodeAsc (x :: rest)) = some (joinC ((x :: rest).map pyDec)) := by
  have hbounds : ∀ p ∈ runsOfAsc (x :: rest), p.1 ≤ p.2 := by
    rw [runsOfAsc]
    exact runsGo_bounds rest x x le_rfl hch
  have hne : runsOfAsc (x :: rest) ≠ [] := by
    rw [runsOfAsc]; exact runsGo_ne_nil rest x x
  rw [rangeToList, if_neg (encodeAsc_cons_ne_nil x rest), encodeAsc,
    splitSep_joinC_renderRuns _ hne, mapO_pieceOf_runs _ hbounds]
  show some (joinC ((runsOfAsc (x :: rest)).map
      (fun p => (List.range' p.1 (p.2 + 1 - p.1)).map pyDec)).flatten)
    = some (joinC ((x :: rest).map pyDec))
  rw [flatten_ranges_map, expandRuns_runsOfAsc (by exact hch)]

theorem canon_xs_ne_nil {n : Nat} (hn : 0 < n) :
    truePos (bitsOf (hexDigitsOf n)) 0 ≠ [] := by
  intro h
  have hs := canonOf_sum n
  rw [h] at hs
  simp at hs
  omega

theorem truePos_cons_chain {bs : List Bool} {j x : Nat} {rest : List Nat}
    (h : truePos bs j = x :: rest) : List.Chain (· < ·) x rest := by
  obtain ⟨bs', hb⟩ := truePos_tail bs j x rest h
  rw [hb]
  exact truePos_chain bs' (x + 1) x (Nat.lt_succ_self x)

theorem canonOf_ne_nil {n : Nat} (hn : 0 < n) : canonOf n ≠ [] := by
  cases hxs : truePos (bitsOf (hexDigitsOf n)) 0 with
  | nil => exact absurd hxs (canon_xs_ne_nil hn)
  | cons x rest =>
    rw [canonOf, hxs]
    exact encodeAsc_cons_ne_nil x rest

theorem rangeToList_canonOf {n : Nat} (hn : 0 < n) :
    rangeToList (canonOf n)
      = some (joinC ((truePos (bitsOf (hexDigitsOf n)) 0).map pyDec)) := by
  cases hxs : truePos (bitsOf (hexDigitsOf n)) 0 with
  | nil => exact absurd hxs (canon_xs_ne_nil hn)
  | cons x rest =>
    rw [canonOf, hxs]
    exact rangeToList_encodeAsc (truePos_cons_chain hxs)

theorem listToRange_joinC_pyDec (xs : List Nat) (h : xs ≠ []) :
    listToRange (joinC (xs.map pyDec)) = maskToRange (pyHex ((xs.map (2 ^ ·)).sum)) := by
  rw [listToRange,
    splitSep_joinC _ (by simpa using h)
      (fun t ht => by
        obtain ⟨a, _, rfl⟩ := List.mem_map.mp ht
        exact comma_not_mem_pyDec a),
    mapO_pyInt_pyDec]

theorem list_round_trip (n : Nat) (hn : 0 < n) :
    (rangeToList (canonOf n)).bind listToRange = some (canonOf n) := by
  rw [rangeToList_canonOf hn]
  show listToRange (joinC ((truePos (bitsOf (hexDigitsOf n)) 0).map pyDec)) = some (canonOf n)
  rw [listToRange_joinC_pyDec _ (canon_xs_ne_nil hn), canonOf_sum n]
  exact maskToRange_pyHex n

theorem rangeToMask_canonOf {n : Nat} (hn : 0 < n) :
    rangeToMask (canonOf n) = some (group8 (pyHex n)) := by
  rw [rangeToMask, if_neg (canonOf_ne_nil hn), rangeToList_canonOf hn]
  show (match mapO pyInt (splitSep ','
      (joinC ((truePos (bitsOf (hexDigitsOf n)) 0).map pyDec))) with
    | some vals => some (group8 (pyHex ((vals.map (2 ^ ·)).sum)))
    | none => none) = some (group8 (pyHex n))
  rw [splitSep_joinC _ (by simpa using canon_xs_ne_nil hn)
      (fun t ht => by
        obtain ⟨a, _, rfl⟩ := List.mem_map.mp ht
        exact comma_not_mem_pyDec a),
    mapO_pyInt_pyDec]
  show some (group8 (pyHex (((truePos (bitsOf (hexDigitsOf n)) 0).map (2 ^ ·)).sum)))
    = some (group8 (pyHex n))
  rw [canonOf_sum n]

theorem validTok_renderRun {p : Nat × Nat} (h : p.1 ≤ p.2) : validTok (renderRun p) := by
  rcases Nat.lt_or_ge p.1 p.2 with hlt | hge
  · refine Or.inr ⟨p.1, p.2, hlt, ?_⟩
    rw [renderRun, if_neg (Nat.ne_of_lt hlt)]
  · have heq : p.1 = p.2 := le_antisymm h hge
    refine Or.inl ⟨p.1, ?_⟩
    rw [renderRun, if_pos heq, List.append_nil]

theorem maskToRange_valid {m r : List Char} (h : maskToRange m = some r) :
    validRange r := by
  cases hv : mapO hexVal m.reverse with
  | none => rw [maskToRange, hv] at h; exact absurd h (by simp)
  | some vals =>
    have he := maskToRange_eq_encode hv
    rw [h] at he
    have hr : r = encodeAsc (truePos (bitsOf vals) 0) := by
      injection he
    cases hxs : truePos (bitsOf vals) 0 with
    | nil =>
      left
      rw [hr, hxs]
      rfl
    | cons x rest =>
      right
      intro t ht
      rw [hr, hxs, encodeAsc] at ht
      have hne : runsOfAsc (x :: rest) ≠ [] := by
        rw [runsOfAsc]; exact runsGo_ne_nil rest x x
      rw [splitSep_joinC_renderRuns _ hne] at ht
      obtain ⟨p, hp, rfl⟩ := List.mem_map.mp ht
      have hb : p.1 ≤ p.2 := by
        rw [runsOfAsc] at hp
        exact runsGo_bounds rest x x le_rfl (truePos_cons_chain hxs) p hp
      exact validTok_renderRun hb

theorem listToRange_valid {l r : List Char} (h : listToRange l = some r) :
    validRange r := by
  rw [listToRange] at h
  cases hv : mapO pyInt (splitSep ',' l) with
  | none => rw [hv] at h; exact absurd h (by simp)
  | some vals =>
    rw [hv] at h
    exact maskToRange_valid h

theorem add_valid {a b c : Cpuset} (h : Cpuset.add a b = some c) :
    validRange c.cpus := by
  rw [Cpuset.add] at h
  cases hla : a.listStr with
  | none => rw [hla] at h; exact absurd h (by simp)
  | some la =>
    cases hlb : b.listStr with
    | none => rw [hla, hlb] at h; exact absurd h (by simp)
    | some lb =>
      rw [hla, hlb] at h
      simp only at h
      set J := joinC ((splitSep ',' la).filter pyIsdigit ++
        ((splitSep ',' lb).filter (fun t => !(splitSep ',' la).contains t)).filter pyIsdigit) with hJ
      cases hlr : listToRange J with
      | none => rw [hlr] at h; exact absurd h (by simp)
      | some r =>
        rw [hlr] at h
        have : c = ⟨r⟩ := by injection h with h1; exact h1.symm
        rw [this]
        exact listToRange_valid hlr

theorem remove_valid {a b c : Cpuset} (h : Cpuset.remove a b = some c) :
    validRange c.cpus := by
  rw [Cpuset.remove] at h
  cases hla : a.listStr with
  | none => rw [hla] at h; exact absurd h (by simp)
  | some la =>
    cases hlb : b.listStr with
    | none => rw [hla, hlb] at h; exact absurd h (by simp)
    | some lb =>
      rw [hla, hlb] at h
      simp only at h
      set J := joinC (((splitSep ',' la).filter
        (fun t => !(splitSep ',' lb).contains t)).filter pyIsdigit) with hJ
      by_cases hemp : J = []
      · rw [if_pos hemp] at h
        have : c = ⟨[]⟩ := by injection h with h1; exact h1.symm
        rw [this]
        left
        rfl
      · rw [if_neg hemp] at h
        cases hlr : listToRange J with
        | none => rw [hlr] at h; exact absurd h (by simp)
        | some r =>
          rw [hlr] at h
          have : c = ⟨r⟩ := by injection h with h1; exact h1.symm
          rw [this]
          exact listToRange_valid hlr

theorem maskToRange_none_of_bad {m : List Char} {c : Char}
    (hc : c ∈ m) (hbad : hexVal c = none) : maskToRange m = none := by
  rw [maskToRange, mapO_eq_none (List.mem_reverse.mpr hc) hbad]

theorem hexVal_comma : hexVal ',' = none := by decide

theorem pyHex_ne_nil (n : Nat) : pyHex n ≠ [] := by
  rw [pyHex_eq]
  split
  · simp
  · simpa using Nat.digits_ne_nil_iff_ne_zero.mpr (by assumption)

theorem pyHex_chars (n : Nat) : ∀ c ∈ pyHex n, ∃ d : Nat, d < 16 ∧ c = Nat.digitChar d := by
  rw [pyHex_eq]
  split
  · intro c hc; simp at hc; exact ⟨0, by omega, by rw [hc]; rfl⟩
  · intro c hc
    simp only [List.mem_reverse, List.mem_map] at hc
    obtain ⟨d, hd, rfl⟩ := hc
    exact ⟨d, Nat.digits_lt_base (by norm_num) hd, rfl⟩

theorem digitChar_ne_comma : ∀ d : Nat, d < 16 → Nat.digitChar d ≠ ',' := by decide

theorem comma_not_mem_pyHex (n : Nat) : ',' ∉ pyHex n := by
  intro h
  obtain ⟨d, hd, he⟩ := pyHex_chars n ',' h
  exact digitChar_ne_comma d hd he.symm

theorem getLast?_append_right {a b : List Char} (h : b ≠ []) :
    (a ++ b).getLast? = b.getLast? := by
  rw [List.getLast?_append]
  obtain ⟨c, hc⟩ := Option.isSome_iff_exists.mp (List.getLast?_isSome.mpr h)
  rw [hc]
  rfl

theorem group8_small {m : List Char} (h0 : m ≠ []) (h : m.length < 8) :
    group8 m = m ++ [','] := by
  have hm : m.length % 8 = m.length := Nat.mod_eq_of_lt h
  have hne : m.length ≠ 0 := fun hz => h0 (List.length_eq_zero.mp hz)
  rw [group8, hm, if_pos hne, List.take_length, List.drop_length]
  simp [chunk8, joinC]

theorem chunk8_short : ∀ m : List Char, m.length ≤ 8 → m ≠ [] → chunk8 m = [m] := by
  intro m h8 h0
  match m with
  | [] => exact absurd rfl h0
  | [a] => rfl
  | [a, b] => rfl
  | [a, b, c] => rfl
  | [a, b, c, d] => rfl
  | [a, b, c, d, e] => rfl
  | [a, b, c, d, e, f] => rfl
  | [a, b, c, d, e, f, g] => rfl
  | a :: b :: c :: d :: e :: f :: g :: h :: rest =>
    have hr : rest = [] := by
      simp only [List.length_cons] at h8
      exact List.length_eq_zero.mp (by omega)
    subst hr
    rfl

theorem group8_eight {m : List Char} (h : m.length = 8) : group8 m = m := by
  have hm : m.length % 8 = 0 := by omega
  rw [group8, hm, if_neg (by simp), List.drop_zero,
    chunk8_short m (by omega) (by intro hz; rw [hz] at h; simp at h)]
  rfl

theorem chunk8_ne_nil : ∀ m : List Char, m ≠ [] → chunk8 m ≠ [] := by
  intro m h0
  match m with
  | [] => exact absurd rfl h0
  | [a] => simp [chunk8]
  | [a, b] => simp [chunk8]
  | [a, b, c] => simp [chunk8]
  | [a, b, c, d] => simp [chunk8]
  | [a, b, c, d, e] => simp [chunk8]
  | [a, b, c, d, e, f] => simp [chunk8]
  | [a, b, c, d, e, f, g] => simp [chunk8]
  | a :: b :: c :: d :: e :: f :: g :: h :: rest => simp [chunk8]

theorem comma_mem_group8 {m : List Char} (h0 : m ≠ []) (h8 : m.length ≠ 8) :
    ',' ∈ group8 m := by
  by_cases hm : m.length % 8 = 0
  · have h16 : 16 ≤ m.length := by
      have hne : m.length ≠ 0 := fun hz => h0 (List.length_eq_zero.mp hz)
      omega
    rw [group8, hm, if_neg (by simp), List.drop_zero]
    match m, h16 with
    | a :: b :: c :: d :: e :: f :: g :: h :: rest, h16 =>
      have hrest : rest ≠ [] := by
        intro hz
        subst hz
        simp at h16
      rw [chunk8]
      cases hcr : chunk8 rest with
      | nil => exact absurd hcr (chunk8_ne_nil rest hrest)
      | cons t ts =>
        rw [joinC_cons (by simp)]
        simp
  · rw [group8, if_pos hm]
    simp

theorem chunk8_chunks_ne_nil : ∀ (m : List Char), ∀ t ∈ chunk8 m, t ≠ [] := by
  intro m
  induction m using chunk8.induct with
  | case1 => intro t ht; simp [chunk8] at ht
  | case2 a => intro t ht; simp [chunk8] at ht; subst ht; simp
  | case3 a b => intro t ht; simp [chunk8] at ht; subst ht; simp
  | case4 a b c => intro t ht; simp [chunk8] at ht; subst ht; simp
  | case5 a b c d => intro t ht; simp [chunk8] at ht; subst ht; simp
  | case6 a b c d e => intro t ht; simp [chunk8] at ht; subst ht; simp
  | case7 a b c d e f => intro t ht; simp [chunk8] at ht; subst ht; simp
  | case8 a b c d e f g => intro t ht; simp [chunk8] at ht; subst ht; simp
  | case9 a b c d e f g h rest ih =>
    intro t ht
    rw [chunk8] at ht
    rcases List.mem_cons.mp ht with rfl | hm
    · simp
    · exact ih t hm

theorem joinC_chunk8_ne_nil {l : List Char} (h : l ≠ []) : joinC (chunk8 l) ≠ [] := by
  cases hc : chunk8 l with
  | nil => exact absurd hc (chunk8_ne_nil l h)
  | cons t ts =>
    exact joinC_head_ne_nil (chunk8_chunks_ne_nil l t (hc ▸ List.mem_cons_self t ts))

theorem joinC_chunk8_getLast : ∀ l : List Char, l ≠ [] → (joinC (chunk8 l)).getLast? = l.getLast? := by
  intro l
  induction l using chunk8.induct with
  | case1 => intro h; exact absurd rfl h
  | case2 a => intro _; simp [chunk8, joinC]
  | case3 a b => intro _; simp [chunk8, joinC]
  | case4 a b c => intro _; simp [chunk8, joinC]
  | case5 a b c d => intro _; simp [chunk8, joinC]
  | case6 a b c d e => intro _; simp [chunk8, joinC]
  | case7 a b c d e f => intro _; simp [chunk8, joinC]
  | case8 a b c d e f g => intro _; simp [chunk8, joinC]
  | case9 a b c d e f g h rest ih =>
    intro _
    rw [chunk8]
    by_cases hr : rest = []
    · subst hr; simp [chunk8, joinC]
    · cases hcr : chunk8 rest with
      | nil => exact absurd hcr (chunk8_ne_nil rest hr)
      | cons t ts =>
        have hjne : joinC (t :: ts) ≠ [] :=
          joinC_head_ne_nil (chunk8_chunks_ne_nil rest t (hcr ▸ List.mem_cons_self t ts))
        rw [joinC_cons (by simp), getLast?_append_right (by simp)]
        have hsplit : (',' :: joinC (t :: ts)) = [','] ++ joinC (t :: ts) := rfl
        rw [hsplit, getLast?_append_right hjne, ← hcr, ih hr]
        conv_rhs =>
          rw [show (a :: b :: c :: d :: e :: f :: g :: h :: rest)
              = [a, b, c, d, e, f, g, h] ++ rest from rfl,
            getLast?_append_right hr]

theorem group8_getLast {m : List Char} (h8 : 8 ≤ m.length) :
    (group8 m).getLast? = m.getLast? := by
  have h0 : m ≠ [] := by intro hz; subst hz; simp at h8
  by_cases hm : m.length % 8 = 0
  · rw [group8, hm, if_neg (by simp), List.drop_zero]
    simp only [List.nil_append]
    exact joinC_chunk8_getLast m h0
  · have hlt : m.length % 8 < m.length := lt_of_lt_of_le (Nat.mod_lt _ (by norm_num)) h8
    have hdne : m.drop (m.length % 8) ≠ [] := by
      intro hz
      have := List.drop_eq_nil_iff.mp hz
      omega
    rw [group8, if_pos hm, getLast?_append_right (joinC_chunk8_ne_nil hdne),
      joinC_chunk8_getLast _ hdne]
    conv_rhs => rw [← List.take_append_drop (m.length % 8) m, getLast?_append_right hdne]

theorem pyHex_getLast_ne_comma (n : Nat) : (pyHex n).getLast? ≠ some ',' := by
  intro h
  have h0 := pyHex_ne_nil n
  rw [List.getLast?_eq_getLast _ h0] at h
  injection h with h1
  exact comma_not_mem_pyHex n (h1 ▸ List.getLast_mem h0)

theorem pyHex_length {n : Nat} (hn : n ≠ 0) :
    (pyHex n).length = (Nat.digits 16 n).length := by
  rw [pyHex_eq, if_neg hn]
  simp

theorem pyHex_len_le {S k : Nat} (hS : S ≠ 0) (h : S < 16 ^ k) : (pyHex S).length ≤ k := by
  rw [pyHex_length hS]
  by_contra hk
  push_neg at hk
  have h1 : 16 ^ (Nat.digits 16 S).length ≤ 16 * S :=
    Nat.base_pow_length_digits_le 16 S (by norm_num) hS
  have h2 : 16 ^ (k + 1) ≤ 16 ^ (Nat.digits 16 S).length :=
    Nat.pow_le_pow_right (by norm_num) hk
  have h3 : 16 * 16 ^ k ≤ 16 * S := by
    calc 16 * 16 ^ k = 16 ^ (k + 1) := by ring
    _ ≤ 16 ^ (Nat.digits 16 S).length := h2
    _ ≤ 16 * S := h1
  exact absurd h (not_lt.mpr (Nat.le_of_mul_le_mul_left h3 (by norm_num)))

theorem pyHex_len_ge {S k : Nat} (h : 16 ^ k ≤ S) : k < (pyHex S).length := by
  have h1 : 1 ≤ 16 ^ k := Nat.one_le_pow k 16 (by norm_num)
  have hS : S ≠ 0 := by omega
  rw [pyHex_length hS]
  by_contra hk
  push_neg at hk
  have h2 : S < 16 ^ (Nat.digits 16 S).length := Nat.lt_base_pow_length_digits (by norm_num)
  have h3 : (16:Nat) ^ (Nat.digits 16 S).length ≤ 16 ^ k := Nat.pow_le_pow_right (by norm_num) hk
  exact absurd (lt_of_lt_of_le h2 (le_trans h3 h)) (lt_irrefl S)

theorem sum_range_pow2 : ∀ k : Nat, ((Finset.range k).sum (2 ^ ·)) = 2 ^ k - 1 := by
  intro k
  induction k with
  | zero => simp
  | succ k ih =>
    rw [Finset.sum_range_succ, ih]
    have h1 : 1 ≤ 2 ^ k := Nat.one_le_two_pow
    have h2 : 2 ^ (k + 1) = 2 * 2 ^ k := by ring
    omega

theorem sum_two_pow_lt {vs : List Nat} {k : Nat} (hnd : vs.Nodup) (hlt : ∀ v ∈ vs, v < k) :
    (vs.map (2 ^ ·)).sum < 2 ^ k := by
  rw [← List.sum_toFinset _ hnd]
  have hsub : vs.toFinset ⊆ Finset.range k := fun x hx =>
    Finset.mem_range.mpr (hlt x (List.mem_toFinset.mp hx))
  have h1 := Finset.sum_le_sum_of_subset (f := (2 ^ ·)) hsub
  rw [sum_range_pow2] at h1
  have h2 : 1 ≤ 2 ^ k := Nat.one_le_two_pow
  exact lt_of_le_of_lt h1 (by omega)

theorem rangeToMask_memberVals {r : List Char} {vs : List Nat} (h0 : r ≠ [])
    (h : memberVals r = some vs) :
    rangeToMask r = some (group8 (pyHex ((vs.map (2 ^ ·)).sum))) := by
  rw [memberVals] at h
  cases hl : rangeToList r with
  | none => rw [hl] at h; exact absurd h (by simp)
  | some l =>
    rw [hl] at h
    change mapO pyInt (splitSep ',' l) = some vs at h
    rw [rangeToMask, if_neg h0, hl]
    show (match mapO pyInt (splitSep ',' l) with
      | some vals => some (group8 (pyHex ((vals.map (2 ^ ·)).sum)))
      | none => none) = some (group8 (pyHex ((vs.map (2 ^ ·)).sum)))
    rw [h]

theorem mem_dropWhile {c : Char} {p : Char → Bool} :
    ∀ l : List Char, c ∈ l → p c = false → c ∈ l.dropWhile p := by
  intro l
  induction l with
  | nil => intro hc _; cases hc
  | cons a as ih =>
    intro hc hp
    rw [List.dropWhile_cons]
    cases hpa : p a with
    | true =>
      simp only [if_pos rfl]
      rcases List.mem_cons.mp hc with rfl | hm
      · rw [hp] at hpa; cases hpa
      · exact ih hm hp
    | false => simpa using hc

theorem mem_pyStrip {c : Char} {l : List Char} (hc : c ∈ l)
    (hw : c.isWhitespace = false) : c ∈ pyStrip l := by
  rw [pyStrip]
  exact List.mem_reverse.mpr
    (mem_dropWhile _ (List.mem_reverse.mpr (mem_dropWhile l hc hw)) hw)

theorem mapO_cons_ne_nil {α β : Type} {f : α → Option β} {a : α} {as : List α}
    {bs : List β} (h : mapO f (a :: as) = some bs) : bs ≠ [] := by
  rw [mapO] at h
  cases h1 : f a with
  | none => rw [h1] at h; exact absurd h (by simp)
  | some b =>
    cases h2 : mapO f as with
    | none => rw [h1, h2] at h; exact absurd h (by simp)
    | some bt =>
      rw [h1, h2] at h
      injection h with h3
      rw [← h3]
      simp

theorem memberVals_ne_nil {r : List Char} {vs : List Nat}
    (h : memberVals r = some vs) : vs ≠ [] := by
  rw [memberVals] at h
  cases hl : rangeToList r with
  | none => rw [hl] at h; exact absurd h (by simp)
  | some l =>
    rw [hl] at h
    change mapO pyInt (splitSep ',' l) = some vs at h
    cases hts : splitSep ',' l with
    | nil => exact absurd hts (splitSep_ne_nil ',' l)
    | cons t ts =>
      rw [hts] at h
      exact mapO_cons_ne_nil h

theorem sum_two_pow_pos {vs : List Nat} (h : vs ≠ []) : 0 < (vs.map (2 ^ ·)).sum := by
  cases vs with
  | nil => exact absurd rfl h
  | cons v vt =>
    have h1 : 1 ≤ 2 ^ v := Nat.one_le_two_pow
    simp only [List.map_cons, List.sum_cons]
    omega

/-- The string `"0-3,7"` is valid range notation. -/
theorem validRange_037 : validRange ['0', '-', '3', ',', '7'] := by
  right
  intro t ht
  have hs : splitSep ',' ['0', '-', '3', ',', '7'] = [['0', '-', '3'], ['7']] := by decide
  rw [hs] at ht
  rcases List.mem_cons.mp ht with rfl | ht2
  · exact Or.inr ⟨0, 3, by norm_num, by decide⟩
  · rcases List.mem_cons.mp ht2 with rfl | ht3
    · exact Or.inl ⟨7, by decide⟩
    · cases ht3

/-- The string `"27,27"` is valid range notation. -/
theorem validRange_2727 : validRange ['2', '7', ',', '2', '7'] := by
  right
  intro t ht
  have hs : splitSep ',' ['2', '7', ',', '2', '7'] = [['2', '7'], ['2', '7']] := by decide
  rw [hs] at ht
  rcases List.mem_cons.mp ht with rfl | ht2
  · exact Or.inl ⟨27, by decide⟩
  · rcases List.mem_cons.mp ht2 with rfl | ht3
    · exact Or.inl ⟨27, by decide⟩
    · cases ht3

/-- C1: for a canonical range string produced by the system (the decode of a
nonzero bitmask), the list round trip always returns it unchanged, but the
mask round trip succeeds only when the hex form is a single ungrouped 8-digit
word; otherwise `_mask_to_range` chokes on the comma the mask grouping
inserted and raises. -/
theorem claim_C1_round_trip (n : Nat) (hn : 0 < n) :
    maskToRange (pyHex n) = some (canonOf n) ∧
    (rangeToList (canonOf n)).bind listToRange = some (canonOf n) ∧
    ((pyHex n).length = 8 →
      (rangeToMask (canonOf n)).bind maskToRange = some (canonOf n)) ∧
    ((pyHex n).length ≠ 8 →
      (rangeToMask (canonOf n)).bind maskToRange = none) := by
  refine ⟨maskToRange_pyHex n, list_round_trip n hn, ?_, ?_⟩
  · intro h8
    rw [rangeToMask_canonOf hn]
    show maskToRange (group8 (pyHex n)) = some (canonOf n)
    rw [group8_eight h8]
    exact maskToRange_pyHex n
  · intro h8
    rw [rangeToMask_canonOf hn]
    show maskToRange (group8 (pyHex n)) = none
    exact maskToRange_none_of_bad (comma_mem_group8 (pyHex_ne_nil n) h8) hexVal_comma

/-- C1 counterexample: `"0-3,7"` is canonical (it is the decode of bitmask
`0x8f`), yet converting it to mask notation and back raises instead of
returning it. -/
theorem claim_C1_counterexample :
    maskToRange (pyHex 143) = some ['0', '-', '3', ',', '7'] ∧
    (rangeToMask ['0', '-', '3', ',', '7']).bind maskToRange = none := by decide

/-- C1 witness: the round-trip theorem applied at bitmask `0x8f`. -/
theorem claim_C1_witness :
    (rangeToList (canonOf 143)).bind listToRange = some (canonOf 143) ∧
    (rangeToMask (canonOf 143)).bind maskToRange = none :=
  ⟨(claim_C1_round_trip 143 (by norm_num)).2.1,
   (claim_C1_round_trip 143 (by norm_num)).2.2.2 (by decide)⟩

/-- C2 counterexample: `new("0-3,7", mask=false).mask()` is not `"8d"`. -/
theorem claim_C2_counterexample :
    ((Cpuset.new ['0', '-', '3', ',', '7'] false).bind Cpuset.maskStr)
      ≠ some ['8', 'd'] := by decide

/-- C2 (amended): `new("0-3,7", mask=false).mask()` returns `"8f,"` — the
bitmask is `0x8f` (`1+2+4+8+128 = 143`), and the grouping step appends a
trailing comma because the hex form is shorter than eight digits. -/
theorem claim_C2_mask_of_range :
    ((Cpuset.new ['0', '-', '3', ',', '7'] false).bind Cpuset.maskStr)
      = some ['8', 'f', ','] := by decide

/-- C3 counterexample: `new("8d", mask=true).range()` is not `"0-3,7"`. -/
theorem claim_C3_counterexample :
    ((Cpuset.new ['8', 'd'] true).map Cpuset.rangeStr)
      ≠ some ['0', '-', '3', ',', '7'] := by decide

/-- C3 (amended): `new("8d", mask=true).range()` returns `"0,2-3,7"` — the
bits of `0x8d` are 0, 2, 3 and 7. -/
theorem claim_C3_range_of_mask :
    ((Cpuset.new ['8', 'd'] true).map Cpuset.rangeStr)
      = some ['0', ',', '2', '-', '3', ',', '7'] := by decide

/-- C4 counterexample: duplicates do not collapse — `_list_to_range` adds
`1 << n` arithmetically instead of or-ing, so `"7,7"` maps to `"8"`, not `"7"`. -/
theorem claim_C4_counterexample :
    listToRange ['7', ',', '7'] = some ['8'] ∧
    listToRange ['7'] = some ['7'] ∧
    listToRange ['7', ',', '7'] ≠ listToRange ['7'] := by decide

/-- C4 (amended): `_list_to_range` depends only on the multiset of entries
(so it is order-invariant), and on any nonempty list it returns the canonical
decode of the summed bitmask; duplicates, however, are summed, not collapsed. -/
theorem claim_C4_order_invariance :
    (∀ l₁ l₂ : List Nat, l₁.Perm l₂ →
      listToRange (joinC (l₁.map pyDec)) = listToRange (joinC (l₂.map pyDec))) ∧
    (∀ l : List Nat, l ≠ [] →
      listToRange (joinC (l.map pyDec)) = some (canonOf ((l.map (2 ^ ·)).sum))) := by
  constructor
  · intro l₁ l₂ hp
    cases l₁ with
    | nil =>
      have h2 : l₂ = [] := hp.nil_eq.symm
      rw [h2]
    | cons x xs =>
      have h1 : (x :: xs) ≠ ([] : List Nat) := by simp
      have h2 : l₂ ≠ [] := by
        intro hz
        rw [hz] at hp
        exact h1 hp.eq_nil
      rw [listToRange_joinC_pyDec _ h1, listToRange_joinC_pyDec _ h2,
        (hp.map (2 ^ ·)).sum_eq]
  · intro l hl
    rw [listToRange_joinC_pyDec _ hl]
    exact maskToRange_pyHex _

/-- C4 witness: order invariance applied to the lists `"3,7"` and `"7,3"`. -/
theorem claim_C4_witness :
    listToRange (joinC ([3, 7].map pyDec)) = listToRange (joinC ([7, 3].map pyDec)) ∧
    listToRange (joinC ([3, 7].map pyDec)) = some (canonOf 136) := by
  constructor
  · exact claim_C4_order_invariance.1 [3, 7] [7, 3] (List.Perm.swap 7 3 [])
  · have h := claim_C4_order_invariance.2 [3, 7] (by simp)
    rw [h]
    decide

/-- C5 counterexample: removing `"2-3"` from `"0-7"` does not give
`"0,1,4-7"` — the pair 0,1 also re-merges into a range. -/
theorem claim_C5_counterexample :
    ((Cpuset.new ['0', '-', '7'] false).bind fun a =>
      (Cpuset.new ['2', '-', '3'] false).bind fun b =>
        (Cpuset.remove a b).map Cpuset.rangeStr)
      ≠ some ['0', ',', '1', ',', '4', '-', '7'] := by decide

/-- C5 (amended): removing `"2-3"` from `"0-7"` leaves `"0-1,4-7"`: the
bitmask round trip re-merges every run of length at least two, including the
two-element run 0,1. -/
theorem claim_C5_remove_result :
    ((Cpuset.new ['0', '-', '7'] false).bind fun a =>
      (Cpuset.new ['2', '-', '3'] false).bind fun b =>
        (Cpuset.remove a b).map Cpuset.rangeStr)
      = some ['0', '-', '1', ',', '4', '-', '7'] := by decide

/-- C6: every range string the system itself produces — by decoding a mask and
by the re-canonicalization inside `add_cpuset` and `remove_cpuset` — is valid
range notation: each comma-separated entry is a bare numeral or `lo-hi` with
`lo < hi`. -/
theorem claim_C6_validity :
    (∀ m r : List Char, maskToRange m = some r → validRange r) ∧
    (∀ a b c : Cpuset, Cpuset.add a b = some c → validRange c.cpus) ∧
    (∀ a b c : Cpuset, Cpuset.remove a b = some c → validRange c.cpus) :=
  ⟨fun _ _ h => maskToRange_valid h,
   fun _ _ _ h => add_valid h,
   fun _ _ _ h => remove_valid h⟩

/-- C6 witness: the decode of mask `"8d"` is valid range notation. -/
theorem claim_C6_witness : validRange ['0', ',', '2', '-', '3', ',', '7'] :=
  claim_C6_validity.1 ['8', 'd'] ['0', ',', '2', '-', '3', ',', '7'] (by decide)

/-- C7 counterexample: construction from the malformed mask text `"g"` raises
(`int('g', 16)` fails) instead of returning a garbage string. -/
theorem claim_C7_counterexample : Cpuset.new ['g'] true = none := by decide

/-- C7 (amended): no explicit validation exists, but several malformed inputs
do raise: any non-hex character in the (stripped) mask text aborts
construction, and a `lo-hi` token with non-numeric parts or a token that is
not a digit string aborts `list()` or `mask()`; only some malformed inputs
(a bare non-numeric token in `list()`, an out-of-order range) silently give
garbage output. -/
theorem claim_C7_error_behavior :
    (∀ m : List Char, (∃ c ∈ pyStrip m, hexVal c = none) →
      Cpuset.new m true = none) ∧
    Cpuset.listStr ⟨['x']⟩ = some ['x'] ∧
    Cpuset.listStr ⟨['a', '-', 'b']⟩ = none ∧
    Cpuset.maskStr ⟨['x']⟩ = none ∧
    Cpuset.listStr ⟨['5', '-', '3']⟩ = some [] := by
  refine ⟨?_, by decide, by decide, by decide, by decide⟩
  rintro m ⟨c, hc, hbad⟩
  have h := maskToRange_none_of_bad hc hbad
  simp [Cpuset.new, h]

/-- C7 witness: the amended theorem applied to the mask text `"z"`. -/
theorem claim_C7_witness : Cpuset.new ['z'] true = none :=
  claim_C7_error_behavior.1 ['z'] ⟨'z', by decide, by decide⟩

/-- C8 counterexample: `"27,27"` is valid range notation with every member
below 28, yet `mask()` returns the eight-digit group `"10000000"` with no
trailing comma, because the duplicated entry is summed into bit 28. -/
theorem claim_C8_counterexample :
    validRange ['2', '7', ',', '2', '7'] ∧
    memberVals ['2', '7', ',', '2', '7'] = some [27, 27] ∧
    rangeToMask ['2', '7', ',', '2', '7']
      = some ['1', '0', '0', '0', '0', '0', '0', '0'] ∧
    (['1', '0', '0', '0', '0', '0', '0', '0'] : List Char).getLast? ≠ some ',' :=
  ⟨validRange_2727, by decide, by decide, by decide⟩

/-- C8 (amended): for a nonempty valid set whose expanded member list is
duplicate-free with all members below 28, `mask()` is the hex digits of the
bitmask followed by a trailing comma; whenever the bitmask's hex form has
eight or more digits the output carries no trailing comma. -/
theorem claim_C8_mask_grouping (r : List Char) (vs : List Nat)
    (_hv : validRange r) (h0 : r ≠ []) (hm : memberVals r = some vs) :
    (vs.Nodup → (∀ v ∈ vs, v < 28) →
      rangeToMask r = some (pyHex ((vs.map (2 ^ ·)).sum) ++ [','])) ∧
    (8 ≤ (pyHex ((vs.map (2 ^ ·)).sum)).length →
      ∃ s, rangeToMask r = some s ∧ s.getLast? ≠ some ',') := by
  constructor
  · intro hnd hlt
    have hS : (vs.map (2 ^ ·)).sum < 16 ^ 7 := by
      have h := sum_two_pow_lt hnd hlt
      calc (vs.map (2 ^ ·)).sum < 2 ^ 28 := h
      _ = 16 ^ 7 := by norm_num
    have hSpos : 0 < (vs.map (2 ^ ·)).sum :=
      sum_two_pow_pos (memberVals_ne_nil hm)
    have hlen : (pyHex ((vs.map (2 ^ ·)).sum)).length < 8 :=
      lt_of_le_of_lt (pyHex_len_le (by omega) hS) (by norm_num)
    rw [rangeToMask_memberVals h0 hm,
      group8_small (pyHex_ne_nil _) hlen]
  · intro h8
    refine ⟨group8 (pyHex ((vs.map (2 ^ ·)).sum)),
      rangeToMask_memberVals h0 hm, ?_⟩
    rw [group8_getLast h8]
    exact pyHex_getLast_ne_comma _

/-- C8 witness: the grouping theorem applied to `"0-3,7"` yields `"8f,"`. -/
theorem claim_C8_witness :
    rangeToMask ['0', '-', '3', ',', '7'] = some ['8', 'f', ','] := by
  have h := (claim_C8_mask_grouping ['0', '-', '3', ',', '7'] [0, 1, 2, 3, 7]
    validRange_037 (by decide) (by decide)).1 (by decide) (by decide)
  rw [h]
  decide

/-- C9: with both sets empty, `add_cpuset` raises (`int('')` inside
`_list_to_range`) while `remove_cpuset` takes its explicit empty fast path and
stores the empty string. -/
theorem claim_C9_empty_ops :
    Cpuset.add ⟨[]⟩ ⟨[]⟩ = none ∧ Cpuset.remove ⟨[]⟩ ⟨[]⟩ = some ⟨[]⟩ := by decide

/-- C10: construction with `isMask` raises whenever the stripped mask text
contains a character that is not a hexadecimal digit — in particular the comma
group separator — so every `mask()` output containing a comma is rejected by
the constructor. -/
theorem claim_C10_mask_rejects :
    (∀ m : List Char, (∃ c ∈ pyStrip m, hexVal c = none) →
      Cpuset.new m true = none) ∧
    (∀ r s : List Char, rangeToMask r = some s → ',' ∈ s →
      Cpuset.new s true = none) := by
  have hnew : ∀ m : List Char, (∃ c ∈ pyStrip m, hexVal c = none) →
      Cpuset.new m true = none := by
    rintro m ⟨c, hc, hbad⟩
    have h := maskToRange_none_of_bad hc hbad
    simp [Cpuset.new, h]
  refine ⟨hnew, ?_⟩
  intro r s _ hcomma
  exact hnew s ⟨',', mem_pyStrip hcomma (by decide), hexVal_comma⟩

/-- C10 witness: the mask output `"8f,"` of `"0-3,7"` is rejected when fed
back to the constructor. -/
theorem claim_C10_witness : Cpuset.new ['8', 'f', ','] true = none :=
  claim_C10_mask_rejects.2 ['0', '-', '3', ',', '7'] ['8', 'f', ',']
    (by decide) (by decide)
